import Mathlib

/-!
Verification of the mycocotb cooperative scheduler core against its
natural-language specification.  Each section shallowly embeds one part of
the Python source (`src/mycocotb/...`) as executable Lean definitions and
proves the specified properties about them.
-/

set_option maxHeartbeats 1000000

namespace Mycocotb

/-! ## Simulator phase (mycocotb/__init__.py, class SimPhase) -/

/-- Process-wide simulator phase enum, from `mycocotb/__init__.py`:
`SimPhase = {NORMAL, READ_WRITE, READ_ONLY}`. -/
inductive SimPhase where
  | NORMAL
  | READ_WRITE
  | READ_ONLY
deriving DecidableEq, Repr

/-! ## Write scheduler (mycocotb/_write_scheduler.py)

Handles are identified by a natural number (Python object identity / dict
key).  A pending write `(write_func, args)` is abstracted as a natural
number payload: the write scheduler never inspects it, it only stores and
replays it.  The `OrderedDict` `_write_calls` is embedded as an
insertion-ordered association list, and the `_writes_pending` Event as its
latched boolean flag. -/

/-- Identity of a signal handle (dict key in `_write_calls`). -/
abbrev Handle := Nat

/-- Abstract `(write_func, args)` payload stored in `_write_calls`. -/
abbrev Write := Nat

/-- Membership test `handle in _write_calls` on the ordered map. -/
def hasKey (l : List (Handle × Write)) (h : Handle) : Bool :=
  l.any fun p => p.1 == h

/-- Keys of the ordered map, in insertion order. -/
def keys (l : List (Handle × Write)) : List Handle :=
  l.map Prod.fst

/-- State touched by the write scheduler: the global `mycocotb.sim_phase`,
the ordered map `_write_calls`, and the fired flag of `_writes_pending`. -/
structure WSState where
  phase : SimPhase
  writeCalls : List (Handle × Write)
  writesPending : Bool
deriving DecidableEq, Repr

/-- The `RuntimeError` raised by `schedule_write` in the read-only phase. -/
inductive WSError where
  | writeDuringReadOnly
deriving DecidableEq, Repr

/-- Result of one `schedule_write` call: the error raised (if any), the
state afterwards, and the write calls `func(*args)` performed immediately,
in order. -/
structure WSResult where
  err : Option WSError
  st : WSState
  executed : List (Handle × Write)
deriving DecidableEq, Repr

/-- Embedding of `schedule_write` (`_write_scheduler.py`, lines 54-71):
in `READ_WRITE` phase invoke the write at once; in `READ_ONLY` raise; else
delete any existing entry for the handle, append `(func, args)` at the
tail, and set the `_writes_pending` event. -/
def schedule_write (st : WSState) (h : Handle) (w : Write) : WSResult :=
  match st.phase with
  | .READ_WRITE => ⟨none, st, [(h, w)]⟩
  | .READ_ONLY => ⟨some .writeDuringReadOnly, st, []⟩
  | .NORMAL =>
      let calls :=
        if hasKey st.writeCalls h then
          st.writeCalls.eraseP (fun p => p.1 == h)
        else
          st.writeCalls
      ⟨none, { st with writeCalls := calls ++ [(h, w)], writesPending := true }, []⟩

/-- Embedding of `apply_scheduled_writes` (`_write_scheduler.py`, lines
47-51): pop entries first-in first-out, invoking each stored write, then
clear the `_writes_pending` event.  Returns the new state and the list of
write calls performed, in order. -/
def apply_scheduled_writes (st : WSState) : WSState × List (Handle × Write) :=
  ({ st with writeCalls := [], writesPending := false }, st.writeCalls)

/-- Fold a whole sequence of `schedule_write` calls over the state
(discarding the per-call results, which in the Normal phase are error-free
and execute nothing). -/
def scheduleAll (st : WSState) : List (Handle × Write) → WSState
  | [] => st
  | (h, w) :: rest => scheduleAll (schedule_write st h w).st rest

/-- Initial write-scheduler state: Normal phase, empty `_write_calls`,
`_writes_pending` clear. -/
def initWS : WSState := ⟨.NORMAL, [], false⟩

/-- Specification-side description of coalescing: keep, for each handle,
only its last scheduled write, ordered by the position of that last
scheduling. -/
def lastDedup : List (Handle × Write) → List (Handle × Write)
  | [] => []
  | (h, w) :: rest =>
      if hasKey rest h then lastDedup rest
      else (h, w) :: lastDedup rest

/-- Specification-side description of the last write scheduled to a given
handle within a sequence. -/
def lastWrite (h : Handle) : List (Handle × Write) → Option (Handle × Write)
  | [] => none
  | p :: rest =>
      match lastWrite h rest with
      | some q => some q
      | none => if p.1 == h then some p else none

/-! ### Write-scheduler lemmas -/

theorem hasKey_eq_true_iff {l : List (Handle × Write)} {h : Handle} :
    hasKey l h = true ↔ h ∈ keys l := by
  rw [hasKey, keys, List.any_eq_true, List.mem_map]
  constructor
  · rintro ⟨p, hp, hph⟩
    exact ⟨p, hp, by simpa using hph⟩
  · rintro ⟨p, hp, hph⟩
    exact ⟨p, hp, by simp [hph]⟩

theorem hasKey_eq_false_iff {l : List (Handle × Write)} {h : Handle} :
    hasKey l h = false ↔ h ∉ keys l := by
  constructor
  · intro hf ht
    rw [← hasKey_eq_true_iff, hf] at ht
    cases ht
  · intro hn
    cases hK : hasKey l h
    · rfl
    · exact absurd (hasKey_eq_true_iff.mp hK) hn

theorem hasKey_append (a b : List (Handle × Write)) (h : Handle) :
    hasKey (a ++ b) h = (hasKey a h || hasKey b h) := by
  simp [hasKey]

theorem hasKey_cons (p : Handle × Write) (l : List (Handle × Write)) (h : Handle) :
    hasKey (p :: l) h = ((p.1 == h) || hasKey l h) := by
  simp [hasKey]

theorem keys_append (a b : List (Handle × Write)) :
    keys (a ++ b) = keys a ++ keys b := by
  simp [keys]

/-- Erasing a key other than `h'` does not change whether `h'` is present. -/
theorem hasKey_eraseP_ne {l : List (Handle × Write)} {h h' : Handle} (hne : h' ≠ h) :
    hasKey (l.eraseP (fun p => p.1 == h)) h' = hasKey l h' := by
  induction l with
  | nil => rfl
  | cons p rest ih =>
      by_cases hp : p.1 = h
      · simp [List.eraseP_cons, hp, hasKey_cons, Ne.symm hne]
      · simp [List.eraseP_cons, hp, hasKey_cons, ih]

/-- Erasing an absent key is the identity. -/
theorem eraseP_of_hasKey_false {l : List (Handle × Write)} {h : Handle}
    (hf : hasKey l h = false) : l.eraseP (fun p => p.1 == h) = l := by
  induction l with
  | nil => rfl
  | cons p rest ih =>
      rw [hasKey_cons] at hf
      simp only [Bool.or_eq_false_iff] at hf
      simp [List.eraseP_cons, hf.1, ih hf.2]

/-- Under unique keys, erasing key `h` leaves no entry with key `h`. -/
theorem hasKey_eraseP_self {l : List (Handle × Write)} {h : Handle}
    (hnd : (keys l).Nodup) : hasKey (l.eraseP (fun p => p.1 == h)) h = false := by
  induction l with
  | nil => rfl
  | cons p rest ih =>
      rw [keys, List.map_cons, List.nodup_cons] at hnd
      by_cases hp : p.1 = h
      · simp only [List.eraseP_cons, hp]
        simp only [beq_self_eq_true, cond_true]
        rw [hasKey_eq_false_iff]
        rw [← hp]
        exact hnd.1
      · simp only [List.eraseP_cons]
        have : (p.1 == h) = false := by simp [hp]
        simp only [this, cond_false, hasKey_cons, this, Bool.false_or]
        exact ih hnd.2

/-- Keys of a map with unique keys stay unique after the erase-then-append
step of `schedule_write`. -/
theorem nodup_keys_insert {l : List (Handle × Write)} {h : Handle} (w : Write)
    (hnd : (keys l).Nodup) :
    (keys ((if hasKey l h then l.eraseP (fun p => p.1 == h) else l) ++ [(h, w)])).Nodup := by
  by_cases hk : hasKey l h = true
  · simp only [hk, if_true]
    rw [keys_append]
    refine List.Nodup.append ?_ (by simp [keys]) ?_
    · have hsub : (l.eraseP (fun p => p.1 == h)).Sublist l := List.eraseP_sublist l
      exact ((hsub.map Prod.fst).nodup hnd)
    · intro a ha hb
      simp [keys] at hb
      have hself := @hasKey_eraseP_self l h hnd
      rw [hasKey_eq_false_iff] at hself
      rw [hb] at ha
      exact hself ha
  · simp only [hk, if_false]
    rw [keys_append]
    refine List.Nodup.append hnd (by simp [keys]) ?_
    intro a ha hb
    simp [keys] at hb
    rw [Bool.not_eq_true] at hk
    rw [hasKey_eq_false_iff] at hk
    rw [hb] at ha
    exact hk ha

/-- When all keys are unique, last-occurrence deduplication does nothing. -/
theorem lastDedup_of_nodup {l : List (Handle × Write)} (hnd : (keys l).Nodup) :
    lastDedup l = l := by
  induction l with
  | nil => rfl
  | cons p rest ih =>
      obtain ⟨h, w⟩ := p
      rw [keys, List.map_cons, List.nodup_cons] at hnd
      have hk : hasKey rest h = false := hasKey_eq_false_iff.mpr hnd.1
      simp [lastDedup, hk, ih hnd.2]

/-- If key `h` occurs again in the suffix, erasing its first occurrence in
the prefix does not change the deduplicated result. -/
theorem lastDedup_eraseP (acc suffix : List (Handle × Write)) (h : Handle)
    (hk : hasKey suffix h = true) :
    lastDedup (acc ++ suffix) = lastDedup (acc.eraseP (fun p => p.1 == h) ++ suffix) := by
  induction acc with
  | nil => rfl
  | cons p rest ih =>
      obtain ⟨h', w'⟩ := p
      by_cases hp : h' = h
      · have hmem : hasKey (rest ++ suffix) h = true := by
          rw [hasKey_append, hk]
          simp
        simp [lastDedup, List.eraseP_cons, hp, hmem]
      · have hep : ((h', w').1 == h) = false := by simp [hp]
        have hkeq : hasKey (rest.eraseP (fun p => p.1 == h) ++ suffix) h'
            = hasKey (rest ++ suffix) h' := by
          rw [hasKey_append, hasKey_append, hasKey_eraseP_ne hp]
        simp only [List.cons_append, List.eraseP_cons, hep, cond_false]
        simp only [lastDedup, hkeq]
        by_cases hc : hasKey (rest ++ suffix) h' = true
        · simp [hc, ih]
        · rw [Bool.not_eq_true] at hc
          simp [hc, ih]

/-- Main characterisation of a run of Normal-phase `schedule_write` calls:
starting from unique keys, the final state keeps the Normal phase, the map
is exactly the last-occurrence deduplication of prefix plus schedule
sequence, and the pending event is set iff it was set or anything was
scheduled. -/
theorem scheduleAll_eq (ws : List (Handle × Write)) :
    ∀ (acc : List (Handle × Write)) (b : Bool), (keys acc).Nodup →
      scheduleAll ⟨.NORMAL, acc, b⟩ ws
        = ⟨.NORMAL, lastDedup (acc ++ ws), b || !ws.isEmpty⟩ := by
  induction ws with
  | nil =>
      intro acc b hnd
      simp [scheduleAll, lastDedup_of_nodup hnd]
  | cons p rest ih =>
      intro acc b hnd
      obtain ⟨h, w⟩ := p
      have hstep : scheduleAll ⟨.NORMAL, acc, b⟩ ((h, w) :: rest)
          = scheduleAll
              ⟨.NORMAL, (if hasKey acc h then acc.eraseP (fun p => p.1 == h) else acc) ++ [(h, w)], true⟩
              rest := by
        rfl
      rw [hstep, ih _ _ (nodup_keys_insert w hnd)]
      have hsuf : hasKey ((h, w) :: rest) h = true := by
        rw [hasKey_cons]
        simp
      have hmain :
          lastDedup ((if hasKey acc h then acc.eraseP (fun p => p.1 == h) else acc) ++ [(h, w)] ++ rest)
            = lastDedup (acc ++ (h, w) :: rest) := by
        by_cases hk : hasKey acc h = true
        · rw [lastDedup_eraseP acc ((h, w) :: rest) h hsuf]
          simp [hk, List.append_assoc]
        · rw [Bool.not_eq_true] at hk
          simp [hk, List.append_assoc]
      rw [hmain]
      simp

theorem keys_lastDedup_subset (l : List (Handle × Write)) :
    keys (lastDedup l) ⊆ keys l := by
  induction l with
  | nil => simp [lastDedup]
  | cons p rest ih =>
      obtain ⟨h, w⟩ := p
      by_cases hk : hasKey rest h = true
      · simp only [lastDedup, hk, if_true]
        intro a ha
        exact List.mem_cons_of_mem _ (ih ha)
      · rw [Bool.not_eq_true] at hk
        simp only [lastDedup, hk, Bool.false_eq_true, if_false]
        intro a ha
        rw [keys, List.map_cons, List.mem_cons] at ha ⊢
        exact ha.imp id (fun hm => ih hm)

/-- Deduplication keeps at most one entry per handle. -/
theorem nodup_keys_lastDedup (l : List (Handle × Write)) :
    (keys (lastDedup l)).Nodup := by
  induction l with
  | nil => simp [lastDedup, keys]
  | cons p rest ih =>
      obtain ⟨h, w⟩ := p
      by_cases hk : hasKey rest h = true
      · simpa [lastDedup, hk] using ih
      · rw [Bool.not_eq_true] at hk
        simp only [lastDedup, hk, Bool.false_eq_true, if_false, keys, List.map_cons,
          List.nodup_cons]
        refine ⟨fun hm => ?_, ih⟩
        rw [hasKey_eq_false_iff] at hk
        exact hk (keys_lastDedup_subset rest hm)

theorem lastWrite_of_hasKey_false {l : List (Handle × Write)} {h : Handle}
    (hk : hasKey l h = false) : lastWrite h l = none := by
  induction l with
  | nil => rfl
  | cons p rest ih =>
      rw [hasKey_cons] at hk
      simp only [Bool.or_eq_false_iff] at hk
      simp [lastWrite, ih hk.2, hk.1]

/-- Every surviving entry of the deduplicated list is the last write
scheduled to its handle. -/
theorem lastDedup_mem_lastWrite {l : List (Handle × Write)} {h : Handle} {w : Write}
    (hm : (h, w) ∈ lastDedup l) : lastWrite h l = some (h, w) := by
  induction l with
  | nil => simp [lastDedup] at hm
  | cons p rest ih =>
      obtain ⟨h', w'⟩ := p
      by_cases hk : hasKey rest h' = true
      · simp only [lastDedup, hk, if_true] at hm
        simp [lastWrite, ih hm]
      · rw [Bool.not_eq_true] at hk
        simp only [lastDedup, hk, Bool.false_eq_true, if_false, List.mem_cons] at hm
        rcases hm with heq | hm
        · rw [Prod.mk.injEq] at heq
          obtain ⟨rfl, rfl⟩ := heq
          simp [lastWrite, lastWrite_of_hasKey_false hk]
        · simp [lastWrite, ih hm]

/-- CLAIM C1.  Scheduling any sequence of writes in the Normal phase
(starting from an empty pending map) and then applying them invokes, per
handle, exactly the last scheduled write, in the order of each handle's
last scheduling (the last-occurrence deduplication of the sequence, with
re-scheduling having moved the handle to the tail), and leaves the
pending-writes map empty and the pending event clear.  In particular
scheduling H1:W1, H2:W2, H1:W3 applies (H2:W2, H1:W3). -/
theorem write_coalescing_spec (ws : List (Handle × Write)) :
    (apply_scheduled_writes (scheduleAll initWS ws)).2 = lastDedup ws ∧
    (keys (apply_scheduled_writes (scheduleAll initWS ws)).2).Nodup ∧
    (∀ h w, (h, w) ∈ (apply_scheduled_writes (scheduleAll initWS ws)).2 →
      lastWrite h ws = some (h, w)) ∧
    (apply_scheduled_writes (scheduleAll initWS ws)).1.writeCalls = [] ∧
    (apply_scheduled_writes (scheduleAll initWS ws)).1.writesPending = false ∧
    (apply_scheduled_writes (scheduleAll initWS [(1, 10), (2, 20), (1, 30)])).2
      = [(2, 20), (1, 30)] := by
  have hrun : scheduleAll initWS ws = ⟨.NORMAL, lastDedup ws, !ws.isEmpty⟩ := by
    have hbase := scheduleAll_eq ws [] false (by simp [keys])
    simpa [initWS] using hbase
  refine ⟨?_, ?_, ?_, ?_, ?_, by decide⟩
  · rw [hrun]
    rfl
  · rw [hrun]
    simpa [apply_scheduled_writes] using nodup_keys_lastDedup ws
  · intro h w hm
    rw [hrun] at hm
    simp only [apply_scheduled_writes] at hm
    exact lastDedup_mem_lastWrite hm
  · rw [hrun]
    rfl
  · rw [hrun]
    rfl

/-- WITNESS for C1: instantiated at the three-write sequence of the claim. -/
theorem write_coalescing_spec_witness :
    (apply_scheduled_writes (scheduleAll initWS [(1, 10), (2, 20), (1, 30)])).2
        = lastDedup [(1, 10), (2, 20), (1, 30)] ∧
    lastWrite 1 [(1, 10), (2, 20), (1, 30)] = some (1, 30) := by
  refine ⟨(write_coalescing_spec [(1, 10), (2, 20), (1, 30)]).1, ?_⟩
  exact (write_coalescing_spec [(1, 10), (2, 20), (1, 30)]).2.2.1 1 30 (by decide)

/-- CLAIM C2.  One `schedule_write` call: in ReadWrite the write function
runs immediately and the state (in particular the pending-writes map) is
untouched; in ReadOnly it raises `WriteDuringReadOnly` and the state is
untouched; in Normal nothing runs, no error is raised, the entry for the
handle is moved to the tail with the new write, and the pending event is
set. -/
theorem schedule_write_phases (st : WSState) (h : Handle) (w : Write) :
    (st.phase = .READ_WRITE → schedule_write st h w = ⟨none, st, [(h, w)]⟩) ∧
    (st.phase = .READ_ONLY →
      schedule_write st h w = ⟨some .writeDuringReadOnly, st, []⟩) ∧
    (st.phase = .NORMAL →
      (schedule_write st h w).err = none ∧
      (schedule_write st h w).executed = [] ∧
      (schedule_write st h w).st.writeCalls
        = st.writeCalls.eraseP (fun p => p.1 == h) ++ [(h, w)] ∧
      (schedule_write st h w).st.writesPending = true) := by
  refine ⟨fun hp => ?_, fun hp => ?_, fun hp => ?_⟩
  · simp [schedule_write, hp]
  · simp [schedule_write, hp]
  · refine ⟨by simp [schedule_write, hp], by simp [schedule_write, hp], ?_, by simp [schedule_write, hp]⟩
    by_cases hk : hasKey st.writeCalls h = true
    · simp [schedule_write, hp, hk]
    · rw [Bool.not_eq_true] at hk
      simp [schedule_write, hp, hk, eraseP_of_hasKey_false hk]

/-- WITNESS for C2: one concrete call per phase. -/
theorem schedule_write_phases_witness :
    schedule_write ⟨.READ_WRITE, [], false⟩ 1 10 = ⟨none, ⟨.READ_WRITE, [], false⟩, [(1, 10)]⟩ ∧
    schedule_write ⟨.READ_ONLY, [], false⟩ 1 10
      = ⟨some .writeDuringReadOnly, ⟨.READ_ONLY, [], false⟩, []⟩ ∧
    (schedule_write ⟨.NORMAL, [(1, 5)], false⟩ 1 10).st.writeCalls = [(1, 10)] := by
  refine ⟨(schedule_write_phases ⟨.READ_WRITE, [], false⟩ 1 10).1 rfl,
    (schedule_write_phases ⟨.READ_ONLY, [], false⟩ 1 10).2.1 rfl, ?_⟩
  rw [((schedule_write_phases ⟨.NORMAL, [(1, 5)], false⟩ 1 10).2.2 rfl).2.2.1]
  decide

/-! ## Trigger construction and the singleton decorator
(mycocotb/_utils.py lines 213-233, mycocotb/triggers.py)

Python object identity is embedded as an allocation counter: every plain
object instantiation hands out a fresh identity number.  The `singleton`
decorator is embedded through its closure cell `instance`. -/

/-- Allocation counter standing for Python object creation: each
`object.__new__` yields a fresh identity. -/
structure Alloc where
  next : Nat
deriving DecidableEq, Repr

/-- Closure cell `instance` of the `singleton` class decorator
(`_utils.py`, lines 213-233).  `ReadWrite`, `ReadOnly` and `NextTimeStep`
each carry `@singleton` and therefore own one such cell. -/
structure SingletonCell where
  inst : Option Nat
deriving DecidableEq, Repr

/-- Embedding of the `__new__` installed by the `singleton` decorator: if
the cell is empty, allocate and initialise a fresh instance and store it;
otherwise return the stored instance unchanged. -/
def singletonNew (cell : SingletonCell) (al : Alloc) : Nat × SingletonCell × Alloc :=
  match cell.inst with
  | some i => (i, cell, al)
  | none => (al.next, ⟨some al.next⟩, ⟨al.next + 1⟩)

/-- Python-level class of a signal handle, as discriminated by the
`isinstance` checks in `triggers.py` (`LogicObject` is the scalar logic
class, `LogicArrayObject` the vector class of a given width). -/
inductive HandleKind where
  | logicObject
  | logicArrayObject (width : Nat)
  | otherObject
deriving DecidableEq, Repr

/-- A signal handle: identity plus Python class. -/
structure SigHandle where
  id : Nat
  kind : HandleKind
deriving DecidableEq, Repr

/-- An edge-trigger object: fresh identity plus the stored signal
(`_EdgeBase.__init__`, triggers.py lines 305-307). -/
structure EdgeTrigger where
  id : Nat
  signal : SigHandle
deriving DecidableEq, Repr

/-- Embedding of `RisingEdge(signal)` construction.  The `RisingEdge`
class (triggers.py lines 322-348) carries no `@singleton` decorator and no
metaclass, and nothing in the code base ever calls `__singleton_key__`, so
each construction is a plain instantiation: `_EdgeBase.__init__` stores
the signal on a freshly allocated object, with no type check. -/
def risingEdgeNew (signal : SigHandle) (al : Alloc) : EdgeTrigger × Alloc :=
  (⟨al.next, signal⟩, ⟨al.next + 1⟩)

/-- Embedding of `FallingEdge(signal)` construction (triggers.py lines
351-377); identical shape to `RisingEdge`. -/
def fallingEdgeNew (signal : SigHandle) (al : Alloc) : EdgeTrigger × Alloc :=
  (⟨al.next, signal⟩, ⟨al.next + 1⟩)

/-- The `TypeError` that `__singleton_key__` would raise. -/
inductive PyTypeError where
  | typeError
deriving DecidableEq, Repr

/-- Embedding of `RisingEdge.__singleton_key__` (triggers.py lines
340-348): accept exactly scalar `LogicObject` signals.  This classmethod
is defined but dead code — no caller exists anywhere in the sources. -/
def risingEdgeSingletonKey (signal : SigHandle) : Except PyTypeError SigHandle :=
  if signal.kind = .logicObject then .ok signal else .error .typeError

/-- Embedding of `FallingEdge.__singleton_key__` (triggers.py lines
369-377), identical to the rising-edge check and equally never invoked. -/
def fallingEdgeSingletonKey (signal : SigHandle) : Except PyTypeError SigHandle :=
  if signal.kind = .logicObject then .ok signal else .error .typeError

/-- COUNTEREXAMPLE to C3 as stated: constructing `RisingEdge` twice on the
same scalar logic signal yields two distinct instances, because the edge
classes are not interned (no decorator applies `__singleton_key__`). -/
theorem rising_edge_not_interned_cex :
    (risingEdgeNew ⟨7, .logicObject⟩ ⟨0⟩).1
      ≠ (risingEdgeNew ⟨7, .logicObject⟩ (risingEdgeNew ⟨7, .logicObject⟩ ⟨0⟩).2).1 := by
  decide

/-- CLAIM C3 (amended).  The `@singleton`-decorated phase triggers
(`ReadWrite`, `ReadOnly`, `NextTimeStep`) return the identical instance on
repeated construction, from any decorator-cell state; but `RisingEdge(s)`
is NOT `RisingEdge(s)`: each edge-trigger construction allocates a fresh
instance (both constructions do store the same signal). -/
theorem singleton_identity (cell : SingletonCell) (al : Alloc) (s : SigHandle) :
    (singletonNew cell al).1
      = (singletonNew (singletonNew cell al).2.1 (singletonNew cell al).2.2).1 ∧
    (risingEdgeNew s al).1.id ≠ (risingEdgeNew s (risingEdgeNew s al).2).1.id ∧
    (risingEdgeNew s al).1.signal = s ∧
    (risingEdgeNew s (risingEdgeNew s al).2).1.signal = s := by
  refine ⟨?_, by simp [risingEdgeNew], rfl, rfl⟩
  match cell with
  | ⟨some i⟩ => rfl
  | ⟨none⟩ => rfl

/-- CLAIM C4 (the code side of the bug).  Constructing `RisingEdge` or
`FallingEdge` on a 4-bit logic-array handle does NOT raise: it returns an
ordinary trigger object storing that signal, because the `TypeError` check
lives only in the never-called `__singleton_key__`; that dead check would
have rejected the same signal. -/
theorem rising_edge_non_scalar_constructs :
    (risingEdgeNew ⟨5, .logicArrayObject 4⟩ ⟨0⟩).1 = ⟨0, ⟨5, .logicArrayObject 4⟩⟩ ∧
    (fallingEdgeNew ⟨5, .logicArrayObject 4⟩ ⟨0⟩).1 = ⟨0, ⟨5, .logicArrayObject 4⟩⟩ ∧
    risingEdgeSingletonKey ⟨5, .logicArrayObject 4⟩ = .error .typeError ∧
    fallingEdgeSingletonKey ⟨5, .logicArrayObject 4⟩ = .error .typeError := by
  refine ⟨rfl, rfl, rfl, rfl⟩

/-! ## Timer (mycocotb/triggers.py, lines 205-231)

`Timer.__init__` validates the time value, converts it to simulator steps
with `get_sim_steps` (defined in `mycocotb/utils.py`, a file not among
the sources; the embedding takes its integer result as a parameter), and
promotes a zero-step result to one step.  `Timer._prime` then registers a
timed callback for exactly `_sim_steps` steps. -/

/-- The `ValueError` raised for a non-positive Timer time. -/
inductive TimerError where
  | valueError
deriving DecidableEq, Repr

/-- Embedding of `Timer.__init__` (triggers.py lines 205-221): reject
`time <= 0`, otherwise store the converted step count, promoting 0 to 1.
The exact numeric `time` is taken as a rational; `converted` is the value
`get_sim_steps(time, units, round_mode)` returned. -/
def timerInit (time : ℚ) (converted : Nat) : Except TimerError Nat :=
  if time ≤ 0 then .error .valueError
  else .ok (if converted = 0 then 1 else converted)

/-- Embedding of the step count passed to
`simulator.register_timed_callback` by `Timer._prime` (triggers.py lines
223-231): the stored `_sim_steps`, unchanged. -/
def timerRegisteredSteps (simSteps : Nat) : Nat := simSteps

/-- CLAIM C6.  `Timer(time, ...)` with `time <= 0` raises `ValueError`;
for every positive time whose conversion to steps rounds to 0, the
constructor succeeds and the trigger registers with exactly one simulator
step. -/
theorem timer_zero_promotion (time : ℚ) (converted : Nat) :
    (time ≤ 0 → timerInit time converted = .error .valueError) ∧
    (0 < time → converted = 0 →
      (timerInit time converted).map timerRegisteredSteps = .ok 1) := by
  constructor
  · intro hle
    simp [timerInit, hle]
  · intro hpos hzero
    have hnle : ¬ time ≤ 0 := not_le.mpr hpos
    simp only [timerInit, hnle, if_false, hzero, if_true, if_pos rfl]
    rfl

/-- WITNESS for C6: `Timer(-1)` raises; `Timer(1/2)` rounding to 0 steps
registers one step. -/
theorem timer_zero_promotion_witness :
    timerInit (-1) 3 = .error .valueError ∧
    (timerInit (1 / 2) 0).map timerRegisteredSteps = .ok 1 := by
  refine ⟨(timer_zero_promotion (-1) 3).1 (by norm_num),
    (timer_zero_promotion (1 / 2) 0).2 (by norm_num) rfl⟩

/-! ## Integer writes to logic-array handles
(mycocotb/handle.py, `LogicArrayObject._set_value`, lines 761-822)

The handle's bit width is `len(self)`.  The import list of `handle.py`
(lines 5-31) binds `Array`, `Logic` and `LogicArray` from
`mycocotb.types` but never binds `Range`; the wide-vector branch of
`_set_value` nevertheless evaluates `Range(len(self) - 1, "downto", 0)`,
so reaching that branch raises `NameError` at run time. -/

/-- The `_Limits` enum of `handle.py` (lines 39-42). -/
inductive _Limits where
  | SIGNED_NBIT
  | UNSIGNED_NBIT
  | VECTOR_NBIT
deriving DecidableEq, Repr

/-- Embedding of `_value_limits` (handle.py lines 46-58): inclusive
`(min, max)` value bounds for an `n_bits`-wide object under the given
limits class. -/
def _value_limits (nBits : Nat) : _Limits → Int × Int
  | .SIGNED_NBIT => (-(2 ^ (nBits - 1) : Int), (2 ^ (nBits - 1) : Int) - 1)
  | .UNSIGNED_NBIT => (0, (2 ^ nBits : Int) - 1)
  | .VECTOR_NBIT => (-(2 ^ (nBits - 1) : Int), (2 ^ nBits : Int) - 1)

/-- Observable outcome of `LogicArrayObject._set_value` on an `int` value:
which simulator setter gets scheduled (with what payload), or which
exception escapes.  `nameError` marks the evaluation of the unbound name
`Range` (handle.py lines 784 and 791). -/
inductive IntSetResult where
  | callInt (action : Nat) (value : Int)
  | nameError
  | overflowError
deriving DecidableEq, Repr

/-- Embedding of the `isinstance(value, int)` branch of
`LogicArrayObject._set_value` (handle.py lines 769-797) for a handle of
width `n`: check the vector limits; within limits and width at most 32,
schedule `set_signal_val_int(action, value)`; within limits and wider,
the code evaluates `Range(...)` — an unbound name, hence `NameError` —
before it can render the binary string; outside the limits raise
`OverflowError`. -/
def logicArraySetInt (n : Nat) (value : Int) (action : Nat) : IntSetResult :=
  let lims := _value_limits n .VECTOR_NBIT
  if lims.1 ≤ value ∧ value ≤ lims.2 then
    if n ≤ 32 then .callInt action value
    else .nameError
  else .overflowError

/-- CLAIM C8 (behaviour of the code, exhibiting the bug).  For an
integer write to an `n`-bit logic-array handle with `v` in the inclusive
range `[-2^(n-1), 2^n - 1]`: with `n <= 32` the value is passed to the
integer setter as the claim states, but with `n > 32` the code raises
`NameError` (unbound `Range`) instead of rendering a binary string;
out-of-range values raise `OverflowError` as the claim states. -/
theorem logic_array_int_write (n : Nat) (v : Int) (a : Nat) :
    (-(2 ^ (n - 1) : Int) ≤ v ∧ v ≤ (2 ^ n : Int) - 1 → n ≤ 32 →
      logicArraySetInt n v a = .callInt a v) ∧
    (-(2 ^ (n - 1) : Int) ≤ v ∧ v ≤ (2 ^ n : Int) - 1 → 32 < n →
      logicArraySetInt n v a = .nameError) ∧
    (¬(-(2 ^ (n - 1) : Int) ≤ v ∧ v ≤ (2 ^ n : Int) - 1) →
      logicArraySetInt n v a = .overflowError) ∧
    logicArraySetInt 64 5 0 = .nameError := by
  refine ⟨?_, ?_, ?_, by decide⟩
  · intro hin hw
    simp [logicArraySetInt, _value_limits, hin.1, hin.2, hw]
  · intro hin hw
    have hnw : ¬ n ≤ 32 := not_le.mpr hw
    simp [logicArraySetInt, _value_limits, hin.1, hin.2, hnw]
  · intro hout
    simp only [logicArraySetInt, _value_limits]
    rw [if_neg hout]

/-- WITNESS for C8's theorem: a 16-bit in-range write passes the integer
through, a 64-bit in-range write hits the `NameError`, and an out-of-range
16-bit write overflows. -/
theorem logic_array_int_write_witness :
    logicArraySetInt 16 5 0 = .callInt 0 5 ∧
    logicArraySetInt 64 5 0 = .nameError ∧
    logicArraySetInt 16 70000 0 = .overflowError := by
  refine ⟨(logic_array_int_write 16 5 0).1 (by norm_num) (by norm_num),
    (logic_array_int_write 64 5 0).2.1 (by norm_num) (by norm_num),
    (logic_array_int_write 16 70000 0).2.2.1 (by norm_num)⟩

/-! ## Tasks and the scheduler core
(mycocotb/task.py and mycocotb/_scheduler.py)

Tasks are identified by natural numbers.  Python values and exceptions
carried by outcomes are abstracted as naturals.  The `Outcome` type
(`Value`/`Error`) is from `mycocotb/_outcomes.py`, a file not among the
sources; it is modelled from the spec: "Outcome. `Value(T)` or
`Error(exception)`. Sent into a coroutine resumes with the value or raises
the error". -/

/-- The `Task._State` enum (task.py lines 53-61). -/
inductive TaskState where
  | UNSTARTED
  | SCHEDULED
  | PENDING
  | RUNNING
  | FINISHED
  | CANCELLED
deriving DecidableEq, Repr

/-- A Python value: `None` or some other value (abstracted). -/
inductive PyVal where
  | pyNone
  | pyVal (n : Nat)
deriving DecidableEq, Repr

/-- Modelled from the spec: `mycocotb/_outcomes.py` is not among the
sources. `Value(v)` resumes with `v`; `Error(e)` raises `e`;
`Outcome.get()` returns the value or re-raises the error. -/
inductive Outcome where
  | value (v : PyVal)
  | error (e : Nat)
deriving DecidableEq, Repr

/-- Trigger identity as used by the `_trigger2tasks` map: the
`TaskComplete` trigger of a given task, or any other trigger. -/
inductive TrigId where
  | complete (task : Nat)
  | prim (n : Nat)
deriving DecidableEq, Repr

/-- Per-task record: the fields of `Task.__init__` (task.py lines 80-85)
that the claims observe, with the coroutine abstracted to its closed flag
and the done-callback list to a count of firing rounds. -/
structure TaskRec where
  state : TaskState
  outcome : Option Outcome
  cancelledError : Option (Option Nat)
  trigger : Option TrigId
  coroClosed : Bool
  cbRuns : Nat
deriving DecidableEq, Repr

/-- Scheduler state (`Scheduler.__init__`, _scheduler.py lines 119-139):
task records, the ordered run queue `_scheduled_tasks`, the
`_trigger2tasks` map (insertion-ordered, unique keys), the set of primed
triggers, and the terminate flag. -/
structure SchedState where
  tasks : Nat → TaskRec
  scheduled : List (Nat × Outcome)
  trigger2tasks : List (TrigId × List Nat)
  primed : List TrigId
  terminate : Bool

/-- Embedding of `Task.done` (task.py lines 234-236). -/
def TaskRec.done (r : TaskRec) : Bool :=
  r.state == .FINISHED || r.state == .CANCELLED

/-- Embedding of `Task.cancelled` (task.py lines 230-232). -/
def TaskRec.cancelled (r : TaskRec) : Bool :=
  r.state == .CANCELLED

/-- Point update of the task store. -/
def updTask (f : Nat → TaskRec) (t : Nat) (g : TaskRec → TaskRec) : Nat → TaskRec :=
  fun x => if x = t then g (f x) else f x

/-! ### Ordered-dictionary helpers

`_scheduled_tasks` and `_trigger2tasks` are Python (ordered) dicts with
unique keys, embedded as insertion-ordered association lists. -/

section Assoc

variable {α : Type} {β : Type} [DecidableEq α]

/-- Membership test `k in d`. -/
def keyIn (l : List (α × β)) (a : α) : Bool :=
  l.any fun p => decide (p.1 = a)

/-- Deletion `d.pop(k)` / `del d[k]` (removes the unique entry). -/
def eraseKey (l : List (α × β)) (a : α) : List (α × β) :=
  l.eraseP fun p => decide (p.1 = a)

/-- Lookup `d[k]`. -/
def getKey (l : List (α × β)) (a : α) : Option β :=
  match l with
  | [] => none
  | (a', b) :: rest => if a' = a then some b else getKey rest a

/-- Update `d[k] = v` of an existing key in place, else append. -/
def setKey (l : List (α × β)) (a : α) (b : β) : List (α × β) :=
  match l with
  | [] => [(a, b)]
  | (a', b') :: rest => if a' = a then (a, b) :: rest else (a', b') :: setKey rest a b

end Assoc

/-- Embedding of `Scheduler._schedule_task` (_scheduler.py lines 314-326):
refuse a task already in the run queue, otherwise mark it Scheduled and
append it with its resume outcome. -/
def _schedule_task (st : SchedState) (t : Nat) (out : Outcome) : Except String SchedState :=
  if keyIn st.scheduled t then .error "Task was queued more than once."
  else .ok { st with
    tasks := updTask st.tasks t fun r => { r with state := .SCHEDULED },
    scheduled := st.scheduled ++ [(t, out)] }

/-- The waiter loop of `Scheduler._react` (_scheduler.py lines 212-216):
clear each woken task's trigger back-reference and queue it with the
`Value(None)` outcome, in FIFO order. -/
def reactLoop (st : SchedState) : List Nat → Except String SchedState
  | [] => .ok st
  | w :: rest => do
      let st1 := { st with tasks := updTask st.tasks w fun r => { r with trigger := none } }
      let st2 ← _schedule_task st1 w (.value .pyNone)
      reactLoop st2 rest

/-- Embedding of `Scheduler._react` (_scheduler.py lines 179-219): pop the
waiter list of the fired trigger (no-op when absent), queue all waiters,
then run the trigger's cleanup (it becomes unprimed). -/
def _react (st : SchedState) (trig : TrigId) : Except String SchedState :=
  match getKey st.trigger2tasks trig with
  | none => .ok st
  | some scheduling => do
      let st1 := { st with trigger2tasks := eraseKey st.trigger2tasks trig }
      let st2 ← reactLoop st1 scheduling
      .ok { st2 with primed := st2.primed.erase trig }

/-- First half of `Scheduler._unschedule` (_scheduler.py lines 266-268):
remove the task from the run queue if present. -/
def unscheduleQueue (st : SchedState) (t : Nat) : SchedState :=
  { st with
    scheduled := if keyIn st.scheduled t then eraseKey st.scheduled t else st.scheduled }

/-- Second half of `Scheduler._unschedule` (_scheduler.py lines 270-278):
if the task waits on a trigger, clear the back-reference and remove the
task from that trigger's waiter list; if the list becomes empty, unprime
the trigger and drop it from the map.  When the trigger has no map entry,
`setdefault` creates an empty one which is immediately found empty,
unprimed and deleted again: net effect is the map unchanged with the
trigger unprimed. -/
def unprimeBackref (st : SchedState) (t : Nat) : SchedState :=
  match (st.tasks t).trigger with
  | none => st
  | some trig =>
      let stA := { st with tasks := updTask st.tasks t fun r => { r with trigger := none } }
      match getKey stA.trigger2tasks trig with
      | none => { stA with primed := stA.primed.erase trig }
      | some ws0 =>
          let ws1 := if t ∈ ws0 then ws0.erase t else ws0
          if ws1.isEmpty then
            { stA with
              trigger2tasks := eraseKey stA.trigger2tasks trig,
              primed := stA.primed.erase trig }
          else
            { stA with trigger2tasks := setKey stA.trigger2tasks trig ws1 }

/-- Embedding of `Scheduler._unschedule` (_scheduler.py lines 257-284):
dequeue, detach from the awaited trigger, then — unless terminating —
react on the task's `complete` trigger if any task awaits it. -/
def _unschedule (st : SchedState) (t : Nat) : Except String SchedState :=
  let st2 := unprimeBackref (unscheduleQueue st t) t
  if st2.terminate then .ok st2
  else if (getKey st2.trigger2tasks (.complete t)).isSome then _react st2 (.complete t)
  else .ok st2

/-- Embedding of `Task.kill` (task.py lines 180-196): no-op when done;
otherwise set the outcome to `Value(None)`, unschedule, close the
coroutine, move to Finished and fire the done callbacks. -/
def kill (st : SchedState) (t : Nat) : Except String SchedState :=
  if (st.tasks t).done then .ok st
  else do
    let st1 := { st with
      tasks := updTask st.tasks t fun r => { r with outcome := some (.value .pyNone) } }
    let st2 ← _unschedule st1 t
    .ok { st2 with tasks := updTask st2.tasks t fun r =>
      { r with coroClosed := true, state := .FINISHED, cbRuns := r.cbRuns + 1 } }

/-- Embedding of `Task.cancel` (task.py lines 207-228): no-op when done;
otherwise record a `CancelledError(msg)`, unschedule, close the coroutine,
move to Cancelled and fire the done callbacks. -/
def cancel (st : SchedState) (t : Nat) (msg : Option Nat) : Except String SchedState :=
  if (st.tasks t).done then .ok st
  else do
    let st1 := { st with
      tasks := updTask st.tasks t fun r => { r with cancelledError := some msg } }
    let st2 ← _unschedule st1 t
    .ok { st2 with tasks := updTask st2.tasks t fun r =>
      { r with coroClosed := true, state := .CANCELLED, cbRuns := r.cbRuns + 1 } }

/-- Exceptions observable from `Task.result` / `Task.exception`. -/
inductive TaskExc where
  | cancelledError (msg : Option Nat)
  | invalidState
  | attributeError
  | userError (e : Nat)
deriving DecidableEq, Repr

/-- Embedding of `Task.result` (task.py lines 238-251): in Cancelled
re-raise the stored `CancelledError`; in Finished return
`self._outcome.get()` — the value, or the stored error re-raised (the
`get` of the spec-modelled Outcome); otherwise `InvalidStateError`. -/
def taskResult (r : TaskRec) : Except TaskExc PyVal :=
  if r.state = .CANCELLED then .error (.cancelledError (r.cancelledError.getD none))
  else if r.state = .FINISHED then
    match r.outcome with
    | some (.value v) => .ok v
    | some (.error e) => .error (.userError e)
    | none => .error .attributeError
  else .error .invalidState

/-- Embedding of `Task.exception` (task.py lines 253-269): in Cancelled
re-raise the stored `CancelledError`; in Finished return the stored error
if the outcome is an `Error`, else `None`; otherwise `InvalidStateError`. -/
def taskException (r : TaskRec) : Except TaskExc (Option Nat) :=
  if r.state = .CANCELLED then .error (.cancelledError (r.cancelledError.getD none))
  else if r.state = .FINISHED then
    match r.outcome with
    | some (.error e) => .ok (some e)
    | _ => .ok none
  else .error .invalidState

/-- Embedding of `Trigger.__await__` (triggers.py lines 101-103), which
`TaskComplete` inherits: `yield self; return self` — resumption returns
the trigger itself and raises nothing, whatever the task's outcome. -/
def triggerAwaitResult (g : TrigId) : Except TaskExc TrigId :=
  .ok g

/-- Embedding of `Task.__await__` (task.py lines 284-294): `yield self;
return self.result()` — resumption returns `result()`, which re-raises a
stored error. -/
def taskAwaitResult (r : TaskRec) : Except TaskExc PyVal :=
  taskResult r

/-- A freshly created task record (task.py lines 80-85). -/
def initialTaskRec : TaskRec := ⟨.UNSTARTED, none, none, none, false, 0⟩

/-- A concrete minimal scheduler state: one fresh unstarted task, nothing
queued, no waiters. -/
def oneTaskSt : SchedState := ⟨fun _ => initialTaskRec, [], [], [], false⟩

/-! ### Ordered-dictionary lemmas -/

section AssocLemmas

variable {α : Type} {β : Type} [DecidableEq α]

theorem keyIn_true_iff {l : List (α × β)} {a : α} :
    keyIn l a = true ↔ a ∈ l.map Prod.fst := by
  rw [keyIn, List.any_eq_true, List.mem_map]
  constructor
  · rintro ⟨p, hp, hpa⟩
    exact ⟨p, hp, by simpa using hpa⟩
  · rintro ⟨p, hp, hpa⟩
    exact ⟨p, hp, by simp [hpa]⟩

theorem keyIn_false_iff {l : List (α × β)} {a : α} :
    keyIn l a = false ↔ a ∉ l.map Prod.fst := by
  constructor
  · intro hf ht
    rw [← keyIn_true_iff, hf] at ht
    cases ht
  · intro hn
    cases hK : keyIn l a
    · rfl
    · exact absurd (keyIn_true_iff.mp hK) hn

theorem eraseKey_sublist (l : List (α × β)) (a : α) :
    (eraseKey l a).Sublist l :=
  List.eraseP_sublist l

theorem not_mem_map_fst_eraseKey {l : List (α × β)} {a : α}
    (hnd : (l.map Prod.fst).Nodup) : a ∉ (eraseKey l a).map Prod.fst := by
  induction l with
  | nil => simp [eraseKey]
  | cons p rest ih =>
      rw [List.map_cons, List.nodup_cons] at hnd
      by_cases hp : p.1 = a
      · rw [eraseKey, List.eraseP_cons]
        have hd : decide (p.1 = a) = true := by simp [hp]
        rw [hd, cond_true, ← hp]
        exact hnd.1
      · rw [eraseKey, List.eraseP_cons]
        have hd : decide (p.1 = a) = false := by simp [hp]
        rw [hd, cond_false, List.map_cons]
        intro hmem
        rcases List.mem_cons.mp hmem with heq | hmem'
        · exact hp heq.symm
        · exact ih hnd.2 hmem'

theorem getKey_eq_some_mem {l : List (α × β)} {a : α} {b : β}
    (h : getKey l a = some b) : (a, b) ∈ l := by
  induction l with
  | nil => cases h
  | cons p rest ih =>
      obtain ⟨a', b'⟩ := p
      rw [getKey] at h
      by_cases ha : a' = a
      · rw [if_pos ha] at h
        injection h with h
        rw [← h, ha]
        exact List.mem_cons_self _ _
      · rw [if_neg ha] at h
        exact List.mem_cons_of_mem _ (ih h)

theorem getKey_eq_none_iff {l : List (α × β)} {a : α} :
    getKey l a = none ↔ a ∉ l.map Prod.fst := by
  induction l with
  | nil => simp [getKey]
  | cons p rest ih =>
      obtain ⟨a', b'⟩ := p
      rw [getKey, List.map_cons, List.mem_cons]
      by_cases ha : a' = a
      · simp [ha]
      · rw [if_neg ha]
        rw [ih]
        constructor
        · intro hn hmem
          rcases hmem with heq | hmem'
          · exact ha heq.symm
          · exact hn hmem'
        · intro hn hmem
          exact hn (Or.inr hmem)

theorem mem_setKey_iff {l : List (α × β)} {a : α} {b : β}
    (hnd : (l.map Prod.fst).Nodup) (x : α) (y : β) :
    (x, y) ∈ setKey l a b ↔ (x = a ∧ y = b) ∨ ((x, y) ∈ l ∧ x ≠ a) := by
  induction l with
  | nil =>
      simp [setKey]
  | cons p rest ih =>
      obtain ⟨a', b'⟩ := p
      rw [List.map_cons, List.nodup_cons] at hnd
      by_cases ha : a' = a
      · rw [setKey, if_pos ha]
        constructor
        · intro hm
          rcases List.mem_cons.mp hm with heq | hmr
          · left
            rw [Prod.mk.injEq] at heq
            exact heq
          · right
            refine ⟨List.mem_cons_of_mem _ hmr, fun hxa => ?_⟩
            have : x ∈ rest.map Prod.fst := List.mem_map.mpr ⟨(x, y), hmr, rfl⟩
            rw [hxa, ← ha] at this
            exact hnd.1 this
        · rintro (⟨rfl, rfl⟩ | ⟨hm, hne⟩)
          · exact List.mem_cons_self _ _
          · rcases List.mem_cons.mp hm with heq | hmr
            · rw [Prod.mk.injEq] at heq
              exact absurd (heq.1.trans ha) hne
            · exact List.mem_cons_of_mem _ hmr
      · rw [setKey, if_neg ha]
        constructor
        · intro hm
          rcases List.mem_cons.mp hm with heq | hmr
          · rw [Prod.mk.injEq] at heq
            right
            refine ⟨by rw [heq.1, heq.2]; exact List.mem_cons_self _ _, ?_⟩
            rw [heq.1]
            exact ha
          · rcases (ih hnd.2).mp hmr with hl | hr
            · exact Or.inl hl
            · exact Or.inr ⟨List.mem_cons_of_mem _ hr.1, hr.2⟩
        · rintro (⟨rfl, rfl⟩ | ⟨hm, hne⟩)
          · exact List.mem_cons_of_mem _ ((ih hnd.2).mpr (Or.inl ⟨rfl, rfl⟩))
          · rcases List.mem_cons.mp hm with heq | hmr
            · rw [heq]
              exact List.mem_cons_self _ _
            · exact List.mem_cons_of_mem _ ((ih hnd.2).mpr (Or.inr ⟨hmr, hne⟩))

end AssocLemmas

/-! ### Scheduler lemmas -/

theorem updTask_same (f : Nat → TaskRec) (t : Nat) (g : TaskRec → TaskRec) :
    updTask f t g t = g (f t) := by
  simp [updTask]

theorem updTask_other (f : Nat → TaskRec) (t x : Nat) (g : TaskRec → TaskRec)
    (hne : x ≠ t) : updTask f t g x = f x := by
  simp [updTask, hne]

/-- Waking a list of distinct waiters, none of which is queued, succeeds
and appends them to the run queue in FIFO order with `Value(None)`
outcomes, touching neither the trigger map, the primed set, the terminate
flag, nor any other task's record. -/
theorem reactLoop_spec (ws : List Nat) :
    ∀ st : SchedState, ws.Nodup → (∀ w ∈ ws, w ∉ st.scheduled.map Prod.fst) →
      ∃ st', reactLoop st ws = .ok st' ∧
        st'.scheduled = st.scheduled ++ ws.map (fun w => (w, Outcome.value .pyNone)) ∧
        st'.trigger2tasks = st.trigger2tasks ∧
        st'.primed = st.primed ∧
        st'.terminate = st.terminate ∧
        (∀ x, x ∉ ws → st'.tasks x = st.tasks x) := by
  induction ws with
  | nil =>
      intro st _ _
      exact ⟨st, rfl, by simp, rfl, rfl, rfl, fun _ _ => rfl⟩
  | cons w rest ih =>
      intro st hnd hdis
      rw [List.nodup_cons] at hnd
      have hw : w ∉ st.scheduled.map Prod.fst := hdis w (List.mem_cons_self w rest)
      have hkey : keyIn st.scheduled w = false := keyIn_false_iff.mpr hw
      set stN : SchedState :=
        { st with
          tasks := updTask (updTask st.tasks w fun r => { r with trigger := none }) w
            fun r => { r with state := .SCHEDULED },
          scheduled := st.scheduled ++ [(w, Outcome.value .pyNone)] } with hstN
      have hstep : reactLoop st (w :: rest) = reactLoop stN rest := by
        rw [reactLoop]
        rw [_schedule_task]
        simp only [hkey, Bool.false_eq_true, if_false]
        rfl
      have hdis' : ∀ v ∈ rest, v ∉ stN.scheduled.map Prod.fst := by
        intro v hv
        rw [hstN]
        simp only [List.map_append, List.mem_append]
        rintro (hmem | hmem)
        · exact hdis v (List.mem_cons_of_mem _ hv) hmem
        · simp at hmem
          rw [hmem] at hv
          exact hnd.1 hv
      obtain ⟨st', hrun, hsch, htrig, hprim, hterm, htasks⟩ := ih stN hnd.2 hdis'
      refine ⟨st', by rw [hstep, hrun], ?_, htrig, hprim, hterm, ?_⟩
      · rw [hsch, hstN]
        simp
      · intro x hx
        rw [List.mem_cons, not_or] at hx
        rw [htasks x hx.2, hstN]
        simp only []
        rw [updTask_other _ _ _ _ hx.1, updTask_other _ _ _ _ hx.1]

/-- Detaching a task from its awaited trigger: the task's back-reference
is cleared, the run queue and terminate flag are untouched, the task is in
no waiter list afterwards, and every surviving waiter list is a sublist of
one in the original map. -/
theorem unprimeBackref_spec (st : SchedState) (t : Nat)
    (hk : (st.trigger2tasks.map Prod.fst).Nodup)
    (h1 : ∀ g ws, (g, ws) ∈ st.trigger2tasks → ∀ w ∈ ws, (st.tasks w).trigger = some g)
    (h2 : ∀ g ws, (g, ws) ∈ st.trigger2tasks → ws.Nodup) :
    (unprimeBackref st t).tasks t = { st.tasks t with trigger := none } ∧
    (unprimeBackref st t).scheduled = st.scheduled ∧
    (unprimeBackref st t).terminate = st.terminate ∧
    (∀ g ws, (g, ws) ∈ (unprimeBackref st t).trigger2tasks → t ∉ ws) ∧
    (∀ g ws, (g, ws) ∈ (unprimeBackref st t).trigger2tasks →
      ∃ ws0, (g, ws0) ∈ st.trigger2tasks ∧ ws.Sublist ws0) := by
  cases htr : (st.tasks t).trigger with
  | none =>
      have hB : unprimeBackref st t = st := by
        simp only [unprimeBackref, htr]
      rw [hB]
      refine ⟨by rw [← htr], rfl, rfl, ?_, ?_⟩
      · intro g ws hm hte
        have := h1 g ws hm t hte
        rw [htr] at this
        cases this
      · intro g ws hm
        exact ⟨ws, hm, List.Sublist.refl ws⟩
  | some trig =>
      cases hget : getKey st.trigger2tasks trig with
      | none =>
          have hB : unprimeBackref st t
              = { st with
                  tasks := updTask st.tasks t fun r => { r with trigger := none },
                  primed := st.primed.erase trig } := by
            simp only [unprimeBackref, htr, hget]
          rw [hB]
          refine ⟨by simp [updTask], rfl, rfl, ?_, ?_⟩
          · intro g ws hm hte
            have hgt := h1 g ws hm t hte
            rw [htr] at hgt
            injection hgt with hgt
            rw [getKey_eq_none_iff] at hget
            have hmm : (g, ws) ∈ st.trigger2tasks := hm
            exact hget (List.mem_map.mpr ⟨(g, ws), hmm, hgt.symm⟩)
          · intro g ws hm
            exact ⟨ws, hm, List.Sublist.refl ws⟩
      | some ws0 =>
          have hmem0 : (trig, ws0) ∈ st.trigger2tasks := getKey_eq_some_mem hget
          have hnd0 : ws0.Nodup := h2 _ _ hmem0
          have htw1 : t ∉ (if t ∈ ws0 then ws0.erase t else ws0) := by
            by_cases htm : t ∈ ws0
            · rw [if_pos htm]
              intro hmem
              rw [hnd0.mem_erase_iff] at hmem
              exact hmem.1 rfl
            · rw [if_neg htm]
              exact htm
          have hsub1 : (if t ∈ ws0 then ws0.erase t else ws0).Sublist ws0 := by
            by_cases htm : t ∈ ws0
            · rw [if_pos htm]
              exact List.erase_sublist t ws0
            · rw [if_neg htm]
          by_cases hemp : (if t ∈ ws0 then ws0.erase t else ws0).isEmpty = true
          · have hB : unprimeBackref st t
                = { st with
                    tasks := updTask st.tasks t fun r => { r with trigger := none },
                    trigger2tasks := eraseKey st.trigger2tasks trig,
                    primed := st.primed.erase trig } := by
              simp only [unprimeBackref, htr, hget, hemp, if_true]
            rw [hB]
            refine ⟨by simp [updTask], rfl, rfl, ?_, ?_⟩
            · intro g ws hm hte
              have hmm : (g, ws) ∈ st.trigger2tasks := (eraseKey_sublist _ _).mem hm
              have hgt := h1 g ws hmm t hte
              rw [htr] at hgt
              injection hgt with hgt
              have hkeys := @not_mem_map_fst_eraseKey _ _ _ st.trigger2tasks trig hk
              have hmap : (g, ws) ∈ eraseKey st.trigger2tasks trig := hm
              exact hkeys (List.mem_map.mpr ⟨(g, ws), hmap, hgt.symm⟩)
            · intro g ws hm
              exact ⟨ws, (eraseKey_sublist _ _).mem hm, List.Sublist.refl ws⟩
          · have hB : unprimeBackref st t
                = { st with
                    tasks := updTask st.tasks t fun r => { r with trigger := none },
                    trigger2tasks :=
                      setKey st.trigger2tasks trig (if t ∈ ws0 then ws0.erase t else ws0) } := by
              simp only [unprimeBackref, htr, hget, hemp, Bool.false_eq_true, if_false]
            rw [hB]
            refine ⟨by simp [updTask], rfl, rfl, ?_, ?_⟩
            · intro g ws hm hte
              rcases (mem_setKey_iff hk g ws).mp hm with ⟨_, hws⟩ | ⟨hmm, hne⟩
              · rw [hws] at hte
                exact htw1 hte
              · have hgt := h1 g ws hmm t hte
                rw [htr] at hgt
                injection hgt with hgt
                exact hne hgt.symm
            · intro g ws hm
              rcases (mem_setKey_iff hk g ws).mp hm with ⟨hg, hws⟩ | ⟨hmm, _⟩
              · rw [hg, hws]
                exact ⟨ws0, hmem0, hsub1⟩
              · exact ⟨ws, hmm, List.Sublist.refl ws⟩

/-- Full effect of `Scheduler._unschedule` on a well-formed state: it
succeeds, clears the task's trigger back-reference, leaves the task
neither in the run queue nor in any waiter list, and preserves the
terminate flag. -/
theorem unschedule_ok (st : SchedState) (t : Nat)
    (hq : (st.scheduled.map Prod.fst).Nodup)
    (hk : (st.trigger2tasks.map Prod.fst).Nodup)
    (h1 : ∀ g ws, (g, ws) ∈ st.trigger2tasks → ∀ w ∈ ws, (st.tasks w).trigger = some g)
    (h2 : ∀ g ws, (g, ws) ∈ st.trigger2tasks → ws.Nodup)
    (h3 : ∀ g ws, (g, ws) ∈ st.trigger2tasks → ∀ w ∈ ws, w ∉ st.scheduled.map Prod.fst) :
    ∃ st', _unschedule st t = .ok st' ∧
      st'.tasks t = { st.tasks t with trigger := none } ∧
      t ∉ st'.scheduled.map Prod.fst ∧
      (∀ g ws, (g, ws) ∈ st'.trigger2tasks → t ∉ ws) ∧
      st'.terminate = st.terminate := by
  have hQt : t ∉ (unscheduleQueue st t).scheduled.map Prod.fst := by
    by_cases hkI : keyIn st.scheduled t = true
    · simp only [unscheduleQueue, hkI, if_true]
      exact not_mem_map_fst_eraseKey hq
    · rw [Bool.not_eq_true] at hkI
      simp only [unscheduleQueue, hkI, Bool.false_eq_true, if_false]
      exact keyIn_false_iff.mp hkI
  have hQsub : ∀ x, x ∈ (unscheduleQueue st t).scheduled.map Prod.fst →
      x ∈ st.scheduled.map Prod.fst := by
    intro x hx
    by_cases hkI : keyIn st.scheduled t = true
    · simp only [unscheduleQueue, hkI, if_true] at hx
      exact ((eraseKey_sublist st.scheduled t).map Prod.fst).mem hx
    · rw [Bool.not_eq_true] at hkI
      simp only [unscheduleQueue, hkI, Bool.false_eq_true, if_false] at hx
      exact hx
  obtain ⟨hBt, hBsched, hBterm, hBP1, hBP3⟩ := unprimeBackref_spec (unscheduleQueue st t) t hk h1 h2
  set stB := unprimeBackref (unscheduleQueue st t) t with hstB
  have hU : _unschedule st t
      = (if stB.terminate then .ok stB
         else if (getKey stB.trigger2tasks (.complete t)).isSome then _react stB (.complete t)
         else .ok stB) := rfl
  by_cases hterm : stB.terminate = true
  · refine ⟨stB, ?_, hBt, ?_, hBP1, ?_⟩
    · rw [hU, if_pos hterm]
    · rw [hBsched]
      exact hQt
    · exact hBterm
  · cases hgc : getKey stB.trigger2tasks (.complete t) with
    | none =>
        have hiso : (getKey stB.trigger2tasks (.complete t)).isSome = false := by
          rw [hgc]
          rfl
        refine ⟨stB, ?_, hBt, ?_, hBP1, ?_⟩
        · rw [hU, if_neg hterm]
          rw [hgc]
          rfl
        · rw [hBsched]
          exact hQt
        · exact hBterm
    | some wsC =>
        have hiso : (getKey stB.trigger2tasks (.complete t)).isSome = true := by
          rw [hgc]
          rfl
        have hmemC : (TrigId.complete t, wsC) ∈ stB.trigger2tasks := getKey_eq_some_mem hgc
        have htC : t ∉ wsC := hBP1 _ _ hmemC
        obtain ⟨ws0, hmem0, hsubC⟩ := hBP3 _ _ hmemC
        have hndC : wsC.Nodup := hsubC.nodup (h2 _ _ hmem0)
        have hdisC : ∀ w ∈ wsC, w ∉ stB.scheduled.map Prod.fst := by
          intro w hw hmem
          rw [hBsched] at hmem
          exact h3 _ _ hmem0 w (hsubC.subset hw) (hQsub w hmem)
        obtain ⟨stR, hrunR, hschR, htrigR, hprimR, htermR, htasksR⟩ :=
          reactLoop_spec wsC
            { stB with trigger2tasks := eraseKey stB.trigger2tasks (.complete t) }
            hndC hdisC
        have hreact : _react stB (.complete t)
            = .ok { stR with primed := stR.primed.erase (.complete t) } := by
          simp only [_react, hgc]
          rw [hrunR]
          rfl
        refine ⟨{ stR with primed := stR.primed.erase (.complete t) }, ?_, ?_, ?_, ?_, ?_⟩
        · rw [hU, if_neg hterm, if_pos hiso]
          exact hreact
        · show stR.tasks t = _
          rw [htasksR t htC]
          exact hBt
        · show t ∉ stR.scheduled.map Prod.fst
          rw [hschR]
          rw [List.map_append, List.mem_append]
          rintro (hmem | hmem)
          · rw [hBsched] at hmem
            exact hQt hmem
          · rw [List.map_map] at hmem
            have : t ∈ wsC := by simpa using hmem
            exact htC this
        · intro g ws hm
          have hm2 : (g, ws) ∈ stR.trigger2tasks := hm
          rw [htrigR] at hm2
          exact hBP1 _ _ ((eraseKey_sublist _ _).mem hm2)
        · show stR.terminate = st.terminate
          rw [htermR]
          exact hBterm

/-- Full effect of `Task.kill` on a non-terminal task in a well-formed
state: the outcome becomes `Value(None)`, the task ends up Finished with
its coroutine closed and its done callbacks fired once more, and it is in
neither the run queue nor any waiter list. -/
theorem kill_ok (st : SchedState) (t : Nat)
    (hq : (st.scheduled.map Prod.fst).Nodup)
    (hk : (st.trigger2tasks.map Prod.fst).Nodup)
    (h1 : ∀ g ws, (g, ws) ∈ st.trigger2tasks → ∀ w ∈ ws, (st.tasks w).trigger = some g)
    (h2 : ∀ g ws, (g, ws) ∈ st.trigger2tasks → ws.Nodup)
    (h3 : ∀ g ws, (g, ws) ∈ st.trigger2tasks → ∀ w ∈ ws, w ∉ st.scheduled.map Prod.fst)
    (hnd : (st.tasks t).done = false) :
    ∃ st', kill st t = .ok st' ∧
      (st'.tasks t).outcome = some (.value .pyNone) ∧
      (st'.tasks t).state = .FINISHED ∧
      (st'.tasks t).coroClosed = true ∧
      (st'.tasks t).cbRuns = (st.tasks t).cbRuns + 1 ∧
      t ∉ st'.scheduled.map Prod.fst ∧
      (∀ g ws, (g, ws) ∈ st'.trigger2tasks → t ∉ ws) := by
  set st1 : SchedState :=
    { st with tasks := updTask st.tasks t fun r =>
        { r with outcome := some (.value .pyNone) } } with hst1
  have htrig_pres : ∀ w, (st1.tasks w).trigger = (st.tasks w).trigger := by
    intro w
    by_cases hw : w = t
    · rw [hst1]
      simp [updTask, hw]
    · rw [hst1]
      simp [updTask, hw]
  obtain ⟨st2, hrun2, ht2, hsch2, hP12, _⟩ := unschedule_ok st1 t hq hk
    (fun g ws hm w hw => by rw [htrig_pres w]; exact h1 g ws hm w hw) h2 h3
  have hkill : kill st t
      = (_unschedule st1 t).bind (fun s => Except.ok
          { s with tasks := updTask s.tasks t fun r =>
            { r with coroClosed := true, state := .FINISHED, cbRuns := r.cbRuns + 1 } }) := by
    simp only [kill, hnd, Bool.false_eq_true, if_false]
    rfl
  have hFt : updTask st2.tasks t (fun r =>
      { r with coroClosed := true, state := .FINISHED, cbRuns := r.cbRuns + 1 }) t
      = { st2.tasks t with
          coroClosed := true,
          state := .FINISHED,
          cbRuns := (st2.tasks t).cbRuns + 1 } := by
    rw [updTask_same]
  refine ⟨{ st2 with tasks := updTask st2.tasks t fun r =>
      { r with coroClosed := true, state := .FINISHED, cbRuns := r.cbRuns + 1 } },
    by rw [hkill, hrun2]; rfl, ?_, ?_, ?_, ?_, hsch2, hP12⟩
  · show (updTask st2.tasks t _ t).outcome = _
    rw [hFt]
    show (st2.tasks t).outcome = _
    rw [ht2]
    show (st1.tasks t).outcome = _
    rw [hst1]
    show (updTask st.tasks t _ t).outcome = _
    rw [updTask_same]
  · show (updTask st2.tasks t _ t).state = _
    rw [hFt]
  · show (updTask st2.tasks t _ t).coroClosed = _
    rw [hFt]
  · show (updTask st2.tasks t _ t).cbRuns = _
    rw [hFt]
    show (st2.tasks t).cbRuns + 1 = _
    rw [ht2]
    show (st1.tasks t).cbRuns + 1 = _
    rw [hst1]
    show (updTask st.tasks t _ t).cbRuns + 1 = _
    rw [updTask_same]

/-- Full effect of `Task.cancel` on a non-terminal task in a well-formed
state: a cancellation error is recorded, the task ends up Cancelled with
its coroutine closed and its done callbacks fired once more, and it is in
neither the run queue nor any waiter list. -/
theorem cancel_ok (st : SchedState) (t : Nat) (msg : Option Nat)
    (hq : (st.scheduled.map Prod.fst).Nodup)
    (hk : (st.trigger2tasks.map Prod.fst).Nodup)
    (h1 : ∀ g ws, (g, ws) ∈ st.trigger2tasks → ∀ w ∈ ws, (st.tasks w).trigger = some g)
    (h2 : ∀ g ws, (g, ws) ∈ st.trigger2tasks → ws.Nodup)
    (h3 : ∀ g ws, (g, ws) ∈ st.trigger2tasks → ∀ w ∈ ws, w ∉ st.scheduled.map Prod.fst)
    (hnd : (st.tasks t).done = false) :
    ∃ st', cancel st t msg = .ok st' ∧
      (st'.tasks t).cancelledError = some msg ∧
      (st'.tasks t).state = .CANCELLED ∧
      (st'.tasks t).coroClosed = true ∧
      (st'.tasks t).cbRuns = (st.tasks t).cbRuns + 1 ∧
      t ∉ st'.scheduled.map Prod.fst ∧
      (∀ g ws, (g, ws) ∈ st'.trigger2tasks → t ∉ ws) := by
  set st1 : SchedState :=
    { st with tasks := updTask st.tasks t fun r =>
        { r with cancelledError := some msg } } with hst1
  have htrig_pres : ∀ w, (st1.tasks w).trigger = (st.tasks w).trigger := by
    intro w
    by_cases hw : w = t
    · rw [hst1]
      simp [updTask, hw]
    · rw [hst1]
      simp [updTask, hw]
  obtain ⟨st2, hrun2, ht2, hsch2, hP12, _⟩ := unschedule_ok st1 t hq hk
    (fun g ws hm w hw => by rw [htrig_pres w]; exact h1 g ws hm w hw) h2 h3
  have hcancel : cancel st t msg
      = (_unschedule st1 t).bind (fun s => Except.ok
          { s with tasks := updTask s.tasks t fun r =>
            { r with coroClosed := true, state := .CANCELLED, cbRuns := r.cbRuns + 1 } }) := by
    simp only [cancel, hnd, Bool.false_eq_true, if_false]
    rfl
  have hFt : updTask st2.tasks t (fun r =>
      { r with coroClosed := true, state := .CANCELLED, cbRuns := r.cbRuns + 1 }) t
      = { st2.tasks t with
          coroClosed := true,
          state := .CANCELLED,
          cbRuns := (st2.tasks t).cbRuns + 1 } := by
    rw [updTask_same]
  refine ⟨{ st2 with tasks := updTask st2.tasks t fun r =>
      { r with coroClosed := true, state := .CANCELLED, cbRuns := r.cbRuns + 1 } },
    by rw [hcancel, hrun2]; rfl, ?_, ?_, ?_, ?_, hsch2, hP12⟩
  · show (updTask st2.tasks t _ t).cancelledError = _
    rw [hFt]
    show (st2.tasks t).cancelledError = _
    rw [ht2]
    show (st1.tasks t).cancelledError = _
    rw [hst1]
    show (updTask st.tasks t _ t).cancelledError = _
    rw [updTask_same]
  · show (updTask st2.tasks t _ t).state = _
    rw [hFt]
  · show (updTask st2.tasks t _ t).coroClosed = _
    rw [hFt]
  · show (updTask st2.tasks t _ t).cbRuns = _
    rw [hFt]
    show (st2.tasks t).cbRuns + 1 = _
    rw [ht2]
    show (st1.tasks t).cbRuns + 1 = _
    rw [hst1]
    show (updTask st.tasks t _ t).cbRuns + 1 = _
    rw [updTask_same]

/-- COUNTEREXAMPLE to C5 as stated: killing a fresh (non-terminal) task
leaves it Finished, not Cancelled — `cancelled()` reports `false`. -/
theorem kill_not_cancelled_cex :
    (kill oneTaskSt 0).map (fun s => (s.tasks 0).state) = .ok .FINISHED ∧
    (kill oneTaskSt 0).map (fun s => (s.tasks 0).cancelled) = .ok false := by
  exact ⟨rfl, rfl⟩

/-- CLAIM C5 (amended).  On a well-formed scheduler state: cancel/kill of
an already-terminal task is a no-op; on a non-terminal task, kill sets the
outcome to `Value(None)` and cancel records a cancellation error, both
remove the task from the run queue and from every trigger waiter list via
`_unschedule`, close the coroutine, fire the completion callbacks, and
transition the task to Finished (kill) respectively Cancelled (cancel). -/
theorem kill_cancel_spec (st : SchedState) (t : Nat) (msg : Option Nat)
    (hq : (st.scheduled.map Prod.fst).Nodup)
    (hk : (st.trigger2tasks.map Prod.fst).Nodup)
    (h1 : ∀ g ws, (g, ws) ∈ st.trigger2tasks → ∀ w ∈ ws, (st.tasks w).trigger = some g)
    (h2 : ∀ g ws, (g, ws) ∈ st.trigger2tasks → ws.Nodup)
    (h3 : ∀ g ws, (g, ws) ∈ st.trigger2tasks → ∀ w ∈ ws, w ∉ st.scheduled.map Prod.fst) :
    ((st.tasks t).done = true → kill st t = .ok st ∧ cancel st t msg = .ok st) ∧
    ((st.tasks t).done = false →
      ∃ st', kill st t = .ok st' ∧
        (st'.tasks t).outcome = some (.value .pyNone) ∧
        (st'.tasks t).state = .FINISHED ∧
        (st'.tasks t).coroClosed = true ∧
        (st'.tasks t).cbRuns = (st.tasks t).cbRuns + 1 ∧
        t ∉ st'.scheduled.map Prod.fst ∧
        (∀ g ws, (g, ws) ∈ st'.trigger2tasks → t ∉ ws)) ∧
    ((st.tasks t).done = false →
      ∃ st', cancel st t msg = .ok st' ∧
        (st'.tasks t).cancelledError = some msg ∧
        (st'.tasks t).state = .CANCELLED ∧
        (st'.tasks t).coroClosed = true ∧
        (st'.tasks t).cbRuns = (st.tasks t).cbRuns + 1 ∧
        t ∉ st'.scheduled.map Prod.fst ∧
        (∀ g ws, (g, ws) ∈ st'.trigger2tasks → t ∉ ws)) := by
  refine ⟨fun hd => ⟨by simp [kill, hd], by simp [cancel, hd]⟩,
    fun hd => kill_ok st t hq hk h1 h2 h3 hd,
    fun hd => cancel_ok st t msg hq hk h1 h2 h3 hd⟩

/-- WITNESS for C5: on the minimal one-task state, kill leaves the task
Finished and cancel leaves it Cancelled. -/
theorem kill_cancel_spec_witness :
    (kill oneTaskSt 0).map (fun s => (s.tasks 0).state) = .ok TaskState.FINISHED ∧
    (cancel oneTaskSt 0 none).map (fun s => (s.tasks 0).state) = .ok TaskState.CANCELLED := by
  have hspec := kill_cancel_spec oneTaskSt 0 none (by simp [oneTaskSt])
    (by simp [oneTaskSt]) (by intro g ws hm; simp [oneTaskSt] at hm)
    (by intro g ws hm; simp [oneTaskSt] at hm) (by intro g ws hm; simp [oneTaskSt] at hm)
  obtain ⟨stk, hk1, _, hk3, _⟩ := hspec.2.1 rfl
  obtain ⟨stc, hc1, _, hc3, _⟩ := hspec.2.2 rfl
  constructor
  · rw [hk1]
    show Except.ok ((stk.tasks 0).state) = _
    rw [hk3]
  · rw [hc1]
    show Except.ok ((stc.tasks 0).state) = _
    rw [hc3]

/-- CLAIM C9.  A task already present in the run queue is refused by
`_schedule_task` with an error; a task not present is appended, and
uniqueness of run-queue entries is preserved. -/
theorem run_queue_uniqueness (st : SchedState) (t : Nat) (out : Outcome) :
    (t ∈ st.scheduled.map Prod.fst →
      _schedule_task st t out = .error "Task was queued more than once.") ∧
    (t ∉ st.scheduled.map Prod.fst →
      ∃ st', _schedule_task st t out = .ok st' ∧
        st'.scheduled = st.scheduled ++ [(t, out)] ∧
        ((st.scheduled.map Prod.fst).Nodup → (st'.scheduled.map Prod.fst).Nodup)) := by
  constructor
  · intro hm
    have hkI : keyIn st.scheduled t = true := keyIn_true_iff.mpr hm
    simp [_schedule_task, hkI]
  · intro hm
    have hkI : keyIn st.scheduled t = false := keyIn_false_iff.mpr hm
    refine ⟨{ st with
        tasks := updTask st.tasks t fun r => { r with state := .SCHEDULED },
        scheduled := st.scheduled ++ [(t, out)] }, ?_, rfl, ?_⟩
    · simp [_schedule_task, hkI]
    · intro hnd
      show ((st.scheduled ++ [(t, out)]).map Prod.fst).Nodup
      rw [List.map_append]
      refine List.Nodup.append hnd (by simp) ?_
      intro a ha hb
      simp at hb
      rw [hb] at ha
      exact hm ha

/-- WITNESS for C9: re-queueing the one queued task errors; queueing a
fresh task appends it. -/
theorem run_queue_uniqueness_witness :
    _schedule_task { oneTaskSt with scheduled := [(0, Outcome.value .pyNone)] } 0
        (Outcome.value .pyNone)
      = .error "Task was queued more than once." ∧
    (_schedule_task oneTaskSt 0 (Outcome.value .pyNone)).map (fun s => s.scheduled)
      = .ok [(0, Outcome.value .pyNone)] := by
  constructor
  · exact (run_queue_uniqueness { oneTaskSt with scheduled := [(0, Outcome.value .pyNone)] }
      0 (Outcome.value .pyNone)).1 (by simp)
  · obtain ⟨st', hrun, hsch, _⟩ := (run_queue_uniqueness oneTaskSt 0
      (Outcome.value .pyNone)).2 (by simp [oneTaskSt])
    rw [hrun]
    show Except.ok st'.scheduled = _
    rw [hsch]
    rfl

/-- CLAIM C7.  For a task finished with an error: awaiting its `complete`
trigger returns normally (the trigger's `__await__` yields and returns the
trigger, raising nothing), awaiting the task itself re-raises the stored
error through `result()`, and `exception()` returns that error. -/
theorem await_complete_spec (t : Nat) (r : TaskRec) (e : Nat)
    (hs : r.state = .FINISHED) (ho : r.outcome = some (.error e)) :
    triggerAwaitResult (.complete t) = .ok (.complete t) ∧
    taskAwaitResult r = .error (.userError e) ∧
    taskException r = .ok (some e) := by
  refine ⟨rfl, ?_, ?_⟩
  · simp [taskAwaitResult, taskResult, hs, ho]
  · simp [taskException, hs, ho]

/-- WITNESS for C7: a concrete finished-with-error task record. -/
theorem await_complete_spec_witness :
    triggerAwaitResult (.complete 0) = .ok (.complete 0) ∧
    taskAwaitResult ⟨.FINISHED, some (.error 5), none, none, true, 1⟩
      = .error (.userError 5) ∧
    taskException ⟨.FINISHED, some (.error 5), none, none, true, 1⟩ = .ok (some 5) :=
  await_complete_spec 0 ⟨.FINISHED, some (.error 5), none, none, true, 1⟩ 5 rfl rfl

/-- CLAIM C10.  After `kill()` returns on a previously non-terminal task
(in a well-formed state), `done()` is true, `cancelled()` is false, and
`result()` returns `None` without raising: kill marks the task Finished
with outcome `Value(None)`, not Cancelled. -/
theorem kill_observers (st : SchedState) (t : Nat)
    (hq : (st.scheduled.map Prod.fst).Nodup)
    (hk : (st.trigger2tasks.map Prod.fst).Nodup)
    (h1 : ∀ g ws, (g, ws) ∈ st.trigger2tasks → ∀ w ∈ ws, (st.tasks w).trigger = some g)
    (h2 : ∀ g ws, (g, ws) ∈ st.trigger2tasks → ws.Nodup)
    (h3 : ∀ g ws, (g, ws) ∈ st.trigger2tasks → ∀ w ∈ ws, w ∉ st.scheduled.map Prod.fst)
    (hnd : (st.tasks t).done = false) :
    ∃ st', kill st t = .ok st' ∧
      (st'.tasks t).done = true ∧
      (st'.tasks t).cancelled = false ∧
      taskResult (st'.tasks t) = .ok .pyNone := by
  obtain ⟨st', hrun, hout, hstate, _, _, _, _⟩ := kill_ok st t hq hk h1 h2 h3 hnd
  refine ⟨st', hrun, ?_, ?_, ?_⟩
  · simp [TaskRec.done, hstate]
  · simp [TaskRec.cancelled, hstate]
  · simp [taskResult, hstate, hout]

/-- WITNESS for C10: the minimal one-task state. -/
theorem kill_observers_witness :
    (kill oneTaskSt 0).map (fun s => (s.tasks 0).done) = .ok true ∧
    (kill oneTaskSt 0).map (fun s => (s.tasks 0).cancelled) = .ok false ∧
    (kill oneTaskSt 0).map (fun s => taskResult (s.tasks 0)) = .ok (.ok .pyNone) := by
  obtain ⟨st', hrun, hdone, hcanc, hres⟩ := kill_observers oneTaskSt 0 (by simp [oneTaskSt])
    (by simp [oneTaskSt]) (by intro g ws hm; simp [oneTaskSt] at hm)
    (by intro g ws hm; simp [oneTaskSt] at hm) (by intro g ws hm; simp [oneTaskSt] at hm) rfl
  refine ⟨?_, ?_, ?_⟩
  · rw [hrun]
    show Except.ok ((st'.tasks 0).done) = _
    rw [hdone]
  · rw [hrun]
    show Except.ok ((st'.tasks 0).cancelled) = _
    rw [hcanc]
  · rw [hrun]
    show Except.ok (taskResult (st'.tasks 0)) = _
    rw [hres]

end Mycocotb
